import Mathlib

/-!
Verification of the SCSS convention linter of magnetikonline/sass-structure
(`linter.js`, function `lintFile` and its inner helpers).

Modelling notes.

* Lines are `List Char`.  The JavaScript string operations used by the
  linter (`trim`, `trimRight`, `substr(0,2)`, `toLowerCase`, `split`) are
  translated structurally below.  `toLowerCase` is modelled on the ASCII
  range, which covers every character class the linter's regular
  expressions can accept.
* Each regular expression of the source is hand-translated into an
  executable matcher with genuine backtracking semantics (`starThen`,
  `plusThen`), applied as a prefix match exactly like JavaScript `test`
  on a `^`-anchored pattern with no `$` anchor.
* The source builds several regular expressions by splicing the file
  base name into a pattern string (`RegExp('^\\$[cm]' + base + '_')` and
  the placeholder/class analogues), so the base name is interpreted as
  regex source text.  The model (`startsWithBasePat`) reproduces this for
  the one metacharacter that occurs in realistic base names: a `.` in the
  base matches any character, every other base character is matched
  literally.  Base names containing other regex metacharacters (which
  quantify, group, anchor, or even make the spliced pattern invalid) are
  outside the model; theorems about the literal reading carry the
  hypothesis that the base name is metacharacter-free
  (`isRegexLiteralCh`).
* In `lintClassName` the source writes `RegExp('^\.' + base + ...)`; in a
  JavaScript string literal `'\.'` collapses to `'.'`, so the first
  pattern character is the any-character metaclass, not a literal dot.
  The model therefore leaves the first character of the subject
  unconstrained (`classNsCheck`), faithfully to the source; the check is
  only ever reached on lines whose first character is `'.'`.
-/

namespace SassLint

/-- ASCII whitespace recognised by the modelled `trim` / `trimRight`. -/
def isWS (c : Char) : Bool :=
  c == ' ' || c == '\t' || c == '\r' || c == '\x0b' || c == '\x0c'

/-- JavaScript `trimLeft` on a line. -/
def trimLeft (l : List Char) : List Char := l.dropWhile isWS

/-- JavaScript `trimRight` on a line (`lineText` in the source). -/
def trimRight (l : List Char) : List Char := (l.reverse.dropWhile isWS).reverse

/-- JavaScript `trim` on a line (`lineTextTrim` in the source). -/
def trimBoth (l : List Char) : List Char := trimLeft (trimRight l)

/-- `startsWithL pre l` holds when `pre` is a prefix of `l`. -/
def startsWithL : List Char → List Char → Bool
  | [], _ => true
  | _ :: _, [] => false
  | p :: ps, c :: cs => p == c && startsWithL ps cs

/-- `endsWithL suf l` holds when `suf` is a suffix of `l`. -/
def endsWithL (suf l : List Char) : Bool := startsWithL suf.reverse l.reverse

/-- the regex character class `[a-z]`. -/
def isLowerCh (c : Char) : Bool := decide ('a' ≤ c) && decide (c ≤ 'z')

/-- the regex character class `[A-Z]`. -/
def isUpperCh (c : Char) : Bool := decide ('A' ≤ c) && decide (c ≤ 'Z')

/-- the regex character class `[0-9]`. -/
def isDigitCh (c : Char) : Bool := decide ('0' ≤ c) && decide (c ≤ '9')

/-- the regex character class `[A-Za-z]`. -/
def isAlphaCh (c : Char) : Bool := isLowerCh c || isUpperCh c

/-- the regex character class `[A-Za-z0-9]`. -/
def isAlnumCh (c : Char) : Bool := isAlphaCh c || isDigitCh c

/-- the regex character class `[A-Za-z0-9_]`. -/
def isVarBodyCh (c : Char) : Bool := isAlnumCh c || c == '_'

/-- ASCII `toLowerCase`: shift an upper-case letter down into `a`-`z`,
leave everything else unchanged. -/
def toLowerChar (c : Char) : Char :=
  if isUpperCh c then Char.ofNat (c.toNat + 32) else c

/-- JavaScript `toLowerCase` on a line (ASCII range). -/
def listToLower (l : List Char) : List Char := l.map toLowerChar

/-- `X*` followed by a continuation, with full backtracking semantics. -/
def starThen (p : Char → Bool) (k : List Char → Bool) : List Char → Bool
  | [] => k []
  | c :: rest => k (c :: rest) || (p c && starThen p k rest)

/-- `X+` followed by a continuation, with full backtracking semantics. -/
def plusThen (p : Char → Bool) (k : List Char → Bool) : List Char → Bool
  | [] => false
  | c :: rest => p c && starThen p k rest

/-- the six recognised file roles (`FILE_ROLE_*` constants). -/
inductive FileRole
  | component
  | config
  | layout
  | mixin
  | module
  | style
  deriving DecidableEq

def msgComment : String :=
  "Root level comments should be in the form -> // -- top level comment --"

def msgVarStyle : String :=
  "Variables should not be defined here, use config.scss file"

def msgVarInvalid : String := "Invalid variable name"

def msgPHNotHere : String := "Placeholder selectors should not be used here"

def msgPHInvalid : String := "Invalid placeholder selector name"

def msgClassNotHere : String := "Class selectors should not be used here"

def msgClassInvalid : String := "Invalid class selector name"

/-- the role-dependent second prefix character of
`lintVariablePlaceHolderPrefixChars`. -/
def rolePrefixSecond : FileRole → Option Char
  | .component => some 'c'
  | .layout => some 'l'
  | .module => some 'm'
  | _ => none

/-- `lintVariablePlaceHolderPrefixChars(firstChar, lineText)`: compare
`substr(0,2)` with the role's two-character prefix, or pass when the role
fixes no prefix letter. -/
def prefixCharsOK (firstChar : Char) (role : FileRole) (l : List Char) : Bool :=
  match rolePrefixSecond role with
  | none => true
  | some sc => startsWithL [firstChar, sc] l

/-- `isFileRoleIn(COMPONENT, LAYOUT, MIXIN, MODULE)` at the comment check. -/
def roleCommentChecked : FileRole → Bool
  | .component | .layout | .mixin | .module => true
  | _ => false

/-- `isFileRoleIn(CONFIG, MIXIN, STYLE)` at the placeholder check. -/
def rolePHForbidden : FileRole → Bool
  | .config | .mixin | .style => true
  | _ => false

/-- the regex `/^\$[a-z][A-Za-z0-9_]+:/`. -/
def varShapeConfig : List Char → Bool
  | '$' :: c :: rest =>
      isLowerCh c && plusThen isVarBodyCh (fun q => startsWithL [':'] q) rest
  | _ => false

/-- the regex `/^\$l[A-Z][A-Za-z0-9]+:/`. -/
def varShapeLayout : List Char → Bool
  | '$' :: 'l' :: c :: rest =>
      isUpperCh c && plusThen isAlnumCh (fun q => startsWithL [':'] q) rest
  | _ => false

/-- the regex character class `[,:. {]` used as name terminator. -/
def isTermCh (c : Char) : Bool :=
  c == ',' || c == ':' || c == '.' || c == ' ' || c == '\x7b'

/-- head character is a terminator (continuation for `[,:. {]`). -/
def termHead : List Char → Bool
  | t :: _ => isTermCh t
  | [] => false

/-- common core of `/^[$%][cm][A-Z][A-Za-z]+_[a-z][A-Za-z0-9]+.../`:
symbol, role letter class `[cm]`, capitalised word, underscore, lower-case
word, then a shape-specific tail. -/
def compModShape (sym : Char) (tailok : List Char → Bool) : List Char → Bool
  | s :: x :: c :: rest =>
      s == sym && (x == 'c' || x == 'm') && isUpperCh c &&
      plusThen isAlphaCh (fun q =>
        match q with
        | '_' :: d :: r2 => isLowerCh d && plusThen isAlnumCh tailok r2
        | _ => false) rest
  | _ => false

/-- the regex `/^\$[cm][A-Z][A-Za-z]+_[a-z][A-Za-z0-9]+:/`. -/
def varShapeCompMod : List Char → Bool :=
  compModShape '$' (fun q => startsWithL [':'] q)

/-- the regex `/^%l[A-Z][A-Za-z0-9]+[,:. {]/`. -/
def phShapeLayout : List Char → Bool
  | '%' :: 'l' :: c :: rest => isUpperCh c && plusThen isAlnumCh termHead rest
  | _ => false

/-- the regex `/^%[cm][A-Z][A-Za-z]+_[a-z][A-Za-z0-9]+[,:. {]/`. -/
def phShapeCompMod : List Char → Bool := compModShape '%' termHead

/-- JavaScript regex `.` (anything but a line terminator). -/
def isDotCh (c : Char) : Bool := !(c == '\n' || c == '\r')

/-- a character that the regex engine treats as a literal when spliced
into pattern source text (no quantifier, group, class, anchor or escape
behaviour). -/
def isRegexLiteralCh (c : Char) : Bool :=
  !(c == '\\' || c == '^' || c == '$' || c == '.' || c == '|' || c == '?' ||
    c == '*' || c == '+' || c == '(' || c == ')' || c == '[' || c == ']' ||
    c == '\x7b' || c == '\x7d')

/-- prefix match of a base name spliced into regex source text: a `.` in
the base is the any-character metaclass (it consumes exactly one
character, like the engine), every other base character matches
literally. -/
def startsWithBasePat : List Char → List Char → Bool
  | [], _ => true
  | _ :: _, [] => false
  | b :: bs, c :: cs =>
      (if b == '.' then isDotCh c else b == c) && startsWithBasePat bs cs

/-- `RegExp('^\\$[cm]' + base + '_')` and `RegExp('^%[cm]' + base + '_')`
applied to `lineText.toLowerCase()`; the spliced base name is matched as
pattern text (`.` is a wildcard), the appended `_` literally.  (Stated on
the raw line with the lower-casing pushed inward, which is the same
function.) -/
def nsPrefixCheck (sym : Char) (base l : List Char) : Bool :=
  match l with
  | s :: x :: rest =>
      toLowerChar s == sym && (toLowerChar x == 'c' || toLowerChar x == 'm') &&
      startsWithBasePat (base ++ ['_']) (listToLower rest)
  | _ => false

/-- `RegExp('^%c' + base + '[,:. {]')` applied to
`lineText.toLowerCase()` (the component simple-placeholder test); the
spliced base name is matched as pattern text. -/
def phSimpleCheck (base l : List Char) : Bool :=
  match l with
  | s :: x :: rest =>
      toLowerChar s == '%' && toLowerChar x == 'c' &&
      startsWithBasePat base (listToLower rest) &&
      termHead ((listToLower rest).drop base.length)
  | _ => false

/-- the regex `/^%c[A-Z]/`. -/
def phUpperAfterC : List Char → Bool
  | '%' :: 'c' :: c :: _ => isUpperCh c
  | _ => false

/-- the source function `lintVariable(lineText)`. -/
def lintVariable (role : FileRole) (base l : List Char) : Bool :=
  if prefixCharsOK '$' role l = false then false
  else if role = .config ∧ varShapeConfig l = false then false
  else if role = .layout ∧ varShapeLayout l = false then false
  else if role = .component ∨ role = .module then
    varShapeCompMod l && nsPrefixCheck '$' base l
  else true

/-- the source function `lintPlaceHolder(lineText)`. -/
def lintPlaceHolder (role : FileRole) (base l : List Char) : Bool :=
  if prefixCharsOK '%' role l = false then false
  else if role = .layout ∧ phShapeLayout l = false then false
  else if role = .component ∨ role = .module then
    (if role = .component ∧ phSimpleCheck base l = true then phUpperAfterC l
     else phShapeCompMod l && nsPrefixCheck '%' base l)
  else true

/-- the regex character class `[a-z0-9]`. -/
def isLowerDigitCh (c : Char) : Bool := isLowerCh c || isDigitCh c

/-- the regex character class `[a-z0-9-]`. -/
def isClassCh (c : Char) : Bool := isLowerDigitCh c || c == '-'

/-- continuation `[a-z0-9][,:. {]` of the class-selector shape. -/
def classTail : List Char → Bool
  | c :: t :: _ => isLowerDigitCh c && isTermCh t
  | _ => false

/-- the regex `/^\.[a-z0-9][a-z0-9-]*[a-z0-9][,:. {]/`. -/
def classShape : List Char → Bool
  | '.' :: a :: rest => isLowerDigitCh a && starThen isClassCh classTail rest
  | _ => false

/-- the regex character class `[,:.\- {]`. -/
def isClassNsTermCh (c : Char) : Bool :=
  c == ',' || c == ':' || c == '.' || c == '-' || c == ' ' || c == '\x7b'

/-- `RegExp('^\.' + base + '[,:.\\- {]')` applied to
`lineText.toLowerCase()`.  In the JavaScript string `'^\.'` the backslash
is dropped, so the leading pattern is the any-character metaclass: the
first subject character is unconstrained.  The spliced base name is
matched as pattern text. -/
def classNsCheck (base l : List Char) : Bool :=
  match l with
  | _ :: rest =>
      startsWithBasePat base (listToLower rest) &&
      (match (listToLower rest).drop base.length with
       | t :: _ => isClassNsTermCh t
       | [] => false)
  | [] => false

/-- the source function `lintClassName(lineText)`. -/
def lintClassName (base l : List Char) : Bool :=
  classShape l && classNsCheck base l

/-- the regex `/^\/\/ +TODO:/`. -/
def commentTodo (l : List Char) : Bool :=
  match l with
  | '/' :: '/' :: rest =>
      plusThen (fun c => c == ' ') (fun q => startsWithL ("TODO:".toList) q) rest
  | _ => false

/-- the comment-shape regex: `^\/\/ -- [^ ].+[^ ] --` as a prefix match. -/
def commentShapeRegex (l : List Char) : Bool :=
  startsWithL ("// -- ".toList) l &&
  (match l.drop 6 with
   | a :: rest =>
       (a != ' ') && plusThen isDotCh (fun q =>
         match q with
         | z :: r2 => (z != ' ') && startsWithL (" --".toList) r2
         | [] => false) rest
   | [] => false)

/-- the per-line body of the `forEach` in `lintFile`: the list of lint
error messages the source records for one physical line. -/
def lintLine (role : FileRole) (base rawLine : List Char) : List String :=
  if startsWithL ['/', '/'] (trimRight rawLine) then
    (if commentTodo (trimRight rawLine) = false ∧ roleCommentChecked role = true ∧
        commentShapeRegex (trimRight rawLine) = false
     then [msgComment] else [])
  else
    (if startsWithL ['$'] (trimBoth rawLine) then
      (if role = .style then [msgVarStyle]
       else if lintVariable role base (trimBoth rawLine) then [] else [msgVarInvalid])
     else []) ++
    (if startsWithL ['%'] (trimBoth rawLine) then
      (if rolePHForbidden role then [msgPHNotHere]
       else if lintPlaceHolder role base (trimBoth rawLine) then [] else [msgPHInvalid])
     else []) ++
    (if startsWithL ['.'] (trimRight rawLine) then
      (if role = .module then
        (if lintClassName base (trimRight rawLine) then [] else [msgClassInvalid])
       else [msgClassNotHere])
     else [])

/-- `path.basename`: the path segment after the last `/`. -/
def afterLastSlash (l : List Char) : List Char :=
  (l.reverse.takeWhile (fun c => c != '/')).reverse

def scssExt : List Char := ".scss".toList

/-- the extension-stripping of `path.basename(sourceFile, '.scss')`: the
suffix is removed when present, unless the whole name equals it. -/
def dropScssExt (l : List Char) : List Char :=
  if l ≠ scssExt ∧ endsWithL scssExt l = true then l.take (l.length - 5) else l

/-- `replace(/^_/, '')`: strip exactly one leading underscore character. -/
def stripOneUnderscore : List Char → List Char
  | '_' :: rest => rest
  | l => l

/-- `sourceFileBaseName` as computed in `lintFile`: basename minus the
`.scss` extension, lower-cased, minus one leading underscore. -/
def sourceFileBaseName (p : List Char) : List Char :=
  stripOneUnderscore (listToLower (dropScssExt (afterLastSlash p)))

/-- the `forEach` over file lines with its running line index. -/
def lintFileFrom (role : FileRole) (base : List Char) :
    Nat → List (List Char) → List (Nat × String)
  | _, [] => []
  | n, line :: rest =>
      ((lintLine role base line).map (fun m => (n + 1, m))) ++
      lintFileFrom role base (n + 1) rest

/-- `lintFile`: all lint errors of one file, tagged with 1-based line
numbers in scan order. -/
def lintFile (role : FileRole) (path : List Char) (fileLines : List (List Char)) :
    List (Nat × String) :=
  lintFileFrom role (sourceFileBaseName path) 0 fileLines

/-- `lintResultCollection` after a run: `addLintError` creates a file's
entry on its first error, so a file appears exactly when it has at least
one error. -/
def lintReport (files : List (FileRole × List Char × List (List Char))) :
    List (List Char × List (Nat × String)) :=
  files.filterMap (fun f =>
    if lintFile f.1 f.2.1 f.2.2 = [] then none
    else some (f.2.1, lintFile f.1 f.2.1 f.2.2))

/-! Spec-side predicates, written from the claims' own words, to be
compared with the source-derived checks above. -/

/-- C2's per-role variable pattern: prefix letter, role shape, and for
component/module the substring after the role letter up to the underscore
must equal the base name case-insensitively. -/
def specVarValid (role : FileRole) (base l : List Char) : Bool :=
  match role with
  | .config => varShapeConfig l
  | .layout => startsWithL ['$', 'l'] l && varShapeLayout l
  | .component =>
      startsWithL ['$', 'c'] l && varShapeCompMod l &&
      decide (listToLower ((l.drop 2).takeWhile (fun c => c != '_')) = base)
  | .module =>
      startsWithL ['$', 'm'] l && varShapeCompMod l &&
      decide (listToLower ((l.drop 2).takeWhile (fun c => c != '_')) = base)
  | .mixin => true
  | .style => true

/-- C6's simple form condition, per the claim's words: the placeholder
name, case-insensitively, equals `%c<base>` immediately followed by a
terminator (the base name read literally). -/
def specPHSimple (base l : List Char) : Bool :=
  match l with
  | s :: x :: rest =>
      toLowerChar s == '%' && toLowerChar x == 'c' &&
      startsWithL base (listToLower rest) &&
      termHead ((listToLower rest).drop base.length)
  | _ => false

/-- C6's component placeholder validity: the simple form (name
case-insensitively equal to `%c<base>` plus terminator, with a literal
`%c` followed by an upper-case letter), else the sub-name form with
namespace agreement. -/
def specPHCompValid (base l : List Char) : Bool :=
  if specPHSimple base l then phUpperAfterC l
  else
    startsWithL ['%', 'c'] l && phShapeCompMod l &&
    decide (listToLower ((l.drop 2).takeWhile (fun c => c != '_')) = base)

/-- C6's module placeholder validity: sub-name form with namespace
agreement. -/
def specPHModValid (base l : List Char) : Bool :=
  startsWithL ['%', 'm'] l && phShapeCompMod l &&
  decide (listToLower ((l.drop 2).takeWhile (fun c => c != '_')) = base)

/-- C7's namespace condition: the class name (after the dot),
case-insensitively, begins with the base name followed by one of
`, : . - space {`. -/
def specClassNs (base l : List Char) : Bool :=
  match listToLower l with
  | '.' :: rest =>
      startsWithL base rest &&
      (match rest.drop base.length with
       | t :: _ => isClassNsTermCh t
       | [] => false)
  | _ => false

/-- C4's comment shape: `// -- <content> --` with a nonempty content that
neither starts nor ends with a space (prefix match, like the source). -/
def specCommentShape (l : List Char) : Bool :=
  startsWithL ("// -- ".toList) l &&
  ((List.range (l.drop 6).length).any (fun k =>
    (match ((l.drop 6).take (k + 1)).head?, ((l.drop 6).take (k + 1)).getLast? with
     | some a, some z => (a != ' ') && (z != ' ')
     | _, _ => false) &&
    startsWithL (" --".toList) ((l.drop 6).drop (k + 1))))

/-! Helper lemmas. -/

theorem startsWithL_iff (p l : List Char) :
    startsWithL p l = true ↔ ∃ t, l = p ++ t := by
  induction p generalizing l with
  | nil => simp [startsWithL]
  | cons a ps ih =>
    cases l with
    | nil => simp [startsWithL]
    | cons c cs =>
      simp only [startsWithL, Bool.and_eq_true, beq_iff_eq, ih, List.cons_append,
        List.cons.injEq]
      constructor
      · rintro ⟨rfl, t, rfl⟩
        exact ⟨t, rfl, rfl⟩
      · rintro ⟨t, rfl, rfl⟩
        exact ⟨rfl, t, rfl⟩

theorem startsWithL_one (c : Char) (l : List Char) :
    startsWithL [c] l = true ↔ ∃ t, l = c :: t := by
  rw [startsWithL_iff]
  simp

theorem startsWithL_append_self (p t : List Char) :
    startsWithL p (p ++ t) = true :=
  (startsWithL_iff p (p ++ t)).mpr ⟨t, rfl⟩

theorem trimLeft_cons_not_ws (c : Char) (t : List Char) (h : isWS c = false) :
    trimLeft (c :: t) = c :: t := by
  simp [trimLeft, List.dropWhile, h]

theorem starThen_iff (p : Char → Bool) (k : List Char → Bool) (l : List Char) :
    starThen p k l = true ↔
      ∃ a b, l = a ++ b ∧ (∀ c ∈ a, p c = true) ∧ k b = true := by
  induction l with
  | nil =>
    simp only [starThen]
    constructor
    · intro h
      exact ⟨[], [], rfl, by simp, h⟩
    · rintro ⟨a, b, hab, _, hk⟩
      rcases List.append_eq_nil.mp hab.symm with ⟨rfl, rfl⟩
      exact hk
  | cons c rest ih =>
    simp only [starThen, Bool.or_eq_true, Bool.and_eq_true, ih]
    constructor
    · rintro (h | ⟨hp, a, b, rfl, ha, hk⟩)
      · exact ⟨[], c :: rest, rfl, by simp, h⟩
      · exact ⟨c :: a, b, rfl, by
          intro e he
          rcases List.mem_cons.mp he with rfl | he
          · exact hp
          · exact ha e he, hk⟩
    · rintro ⟨a, b, hab, ha, hk⟩
      cases a with
      | nil =>
        left
        simpa [hab] using hk
      | cons a0 as =>
        right
        have h3 : a0 = c ∧ as ++ b = rest := by
          have := hab
          simp only [List.cons_append, List.cons.injEq] at this
          exact ⟨this.1.symm, this.2.symm⟩
        rcases h3 with ⟨rfl, rfl⟩
        exact ⟨ha a0 (by simp), as, b, rfl,
          fun e he => ha e (List.mem_cons_of_mem _ he), hk⟩

theorem plusThen_iff (p : Char → Bool) (k : List Char → Bool) (l : List Char) :
    plusThen p k l = true ↔
      ∃ a b, l = a ++ b ∧ a ≠ [] ∧ (∀ c ∈ a, p c = true) ∧ k b = true := by
  cases l with
  | nil =>
    simp only [plusThen]
    constructor
    · intro h
      exact absurd h (by simp)
    · rintro ⟨a, b, hab, hne, -, -⟩
      rcases List.append_eq_nil.mp hab.symm with ⟨rfl, -⟩
      exact absurd rfl hne
  | cons c rest =>
    simp only [plusThen, Bool.and_eq_true, starThen_iff]
    constructor
    · rintro ⟨hp, a, b, rfl, ha, hk⟩
      refine ⟨c :: a, b, rfl, by simp, ?_, hk⟩
      intro e he
      rcases List.mem_cons.mp he with rfl | he
      · exact hp
      · exact ha e he
    · rintro ⟨a, b, hab, hne, ha, hk⟩
      cases a with
      | nil => exact absurd rfl hne
      | cons a0 as =>
        have h3 : a0 = c ∧ as ++ b = rest := by
          simp only [List.cons_append, List.cons.injEq] at hab
          exact ⟨hab.1.symm, hab.2.symm⟩
        rcases h3 with ⟨rfl, rfl⟩
        exact ⟨ha a0 (by simp), as, b, rfl,
          fun e he => ha e (List.mem_cons_of_mem _ he), hk⟩

theorem alpha_bne_underscore (e : Char) (h : isAlphaCh e = true) :
    (e != '_') = true := by
  rcases eq_or_ne e '_' with rfl | hne
  · exact absurd h (by decide)
  · simpa using hne

theorem char_toNat_ofNat (n : Nat) (h : n < 55296) : (Char.ofNat n).toNat = n := by
  unfold Char.ofNat
  rw [dif_pos (Or.inl h)]
  rfl

theorem isUpperCh_bounds (c : Char) (h : isUpperCh c = true) :
    65 ≤ c.toNat ∧ c.toNat ≤ 90 := by
  unfold isUpperCh at h
  simp only [Bool.and_eq_true, decide_eq_true_eq] at h
  exact h

theorem toLowerChar_toNat_of_upper (c : Char) (h : isUpperCh c = true) :
    (toLowerChar c).toNat = c.toNat + 32 := by
  unfold toLowerChar
  rw [if_pos h]
  exact char_toNat_ofNat _ (by have := (isUpperCh_bounds c h).2; omega)

theorem toLowerChar_of_not_upper (c : Char) (h : isUpperCh c = false) :
    toLowerChar c = c := by
  unfold toLowerChar
  rw [if_neg (by simp [h])]

theorem toLower_alpha_ne_underscore (e : Char) (h : isAlphaCh e = true) :
    toLowerChar e ≠ '_' := by
  cases hu : isUpperCh e with
  | true =>
    intro h2
    have h3 := toLowerChar_toNat_of_upper e hu
    rw [h2] at h3
    have h4 := (isUpperCh_bounds e hu).1
    have h5 : ('_' : Char).toNat = 95 := rfl
    omega
  | false =>
    rw [toLowerChar_of_not_upper e hu]
    intro h2
    rw [h2] at h
    exact absurd h (by decide)

theorem takeWhile_append_underscore (A t : List Char)
    (h : ∀ e ∈ A, (e != '_') = true) :
    (A ++ '_' :: t).takeWhile (fun e => e != '_') = A := by
  induction A with
  | nil => simp [List.takeWhile]
  | cons a as ih =>
    have ha := h a (by simp)
    simp only [List.cons_append, List.takeWhile_cons, ha, if_true]
    rw [ih fun e he => h e (List.mem_cons_of_mem _ he)]

theorem startsWith_base_underscore (base : List Char) :
    ∀ (A t : List Char), '_' ∉ base → (∀ e ∈ A, e ≠ '_') →
      (startsWithL (base ++ ['_']) (A ++ '_' :: t) = true ↔ base = A) := by
  induction base with
  | nil =>
    intro A t _ hA
    cases A with
    | nil => simp [startsWithL]
    | cons a as =>
      simp only [List.nil_append, List.cons_append, startsWithL]
      have hne : ('_' == a) = false := by
        have := hA a (by simp)
        exact beq_eq_false_iff_ne.mpr fun hh => this hh.symm
      simp [hne]
  | cons b bs ih =>
    intro A t hb hA
    cases A with
    | nil =>
      simp only [List.cons_append, List.nil_append, startsWithL]
      have hbne : (b == '_') = false := by
        have : b ≠ '_' := fun hh => hb (hh ▸ List.mem_cons_self b bs)
        exact beq_eq_false_iff_ne.mpr this
      simp [hbne]
    | cons a as =>
      simp only [List.cons_append, startsWithL, Bool.and_eq_true, beq_iff_eq,
        List.append_eq]
      rw [ih as t (fun hm => hb (List.mem_cons_of_mem _ hm))
        (fun e he => hA e (List.mem_cons_of_mem _ he))]
      constructor
      · rintro ⟨rfl, rfl⟩; rfl
      · rintro h2
        injection h2 with h3 h4
        exact ⟨h3, h4⟩

theorem startsWithBasePat_no_dot (pat l : List Char)
    (h : ∀ b ∈ pat, (b == '.') = false) :
    startsWithBasePat pat l = startsWithL pat l := by
  induction pat generalizing l with
  | nil => rfl
  | cons b bs ih =>
    cases l with
    | nil => rfl
    | cons c cs =>
      have hb := h b (by simp)
      simp only [startsWithBasePat, startsWithL, hb, Bool.false_eq_true,
        if_false]
      rw [ih cs (fun e he => h e (List.mem_cons_of_mem _ he))]

theorem regexLiteral_no_dot (base : List Char)
    (hm : ∀ c ∈ base, isRegexLiteralCh c = true) :
    ∀ b ∈ base, (b == '.') = false := by
  intro b hbm
  rcases eq_or_ne b '.' with rfl | hne
  · exact absurd (hm _ hbm) (by decide)
  · simpa using hne

theorem phSimpleCheck_eq_specPHSimple (base l : List Char)
    (hdot : ∀ b ∈ base, (b == '.') = false) :
    phSimpleCheck base l = specPHSimple base l := by
  match l with
  | [] => rfl
  | [s] => rfl
  | s :: x :: rest =>
    show (toLowerChar s == '%' && toLowerChar x == 'c' &&
        startsWithBasePat base (listToLower rest) &&
        termHead ((listToLower rest).drop base.length)) =
      (toLowerChar s == '%' && toLowerChar x == 'c' &&
        startsWithL base (listToLower rest) &&
        termHead ((listToLower rest).drop base.length))
    rw [startsWithBasePat_no_dot base (listToLower rest) hdot]

theorem compModShape_decomp (sym : Char) (tailok : List Char → Bool)
    (l : List Char) (h : compModShape sym tailok l = true) :
    ∃ x c as q, l = sym :: x :: c :: (as ++ '_' :: q) ∧
      (x == 'c' || x == 'm') = true ∧ isUpperCh c = true ∧
      (∀ e ∈ c :: as, isAlphaCh e = true) := by
  match l with
  | [] => exact absurd h (by simp [compModShape])
  | [s] => exact absurd h (by simp [compModShape])
  | [s, x] => exact absurd h (by simp [compModShape])
  | s :: x :: c :: rest =>
    simp only [compModShape, Bool.and_eq_true, beq_iff_eq] at h
    obtain ⟨⟨⟨rfl, hx⟩, hc⟩, hplus⟩ := h
    obtain ⟨a, b, rfl, hane, ha, hk⟩ := (plusThen_iff _ _ rest).mp hplus
    match b with
    | [] => exact absurd hk (by simp)
    | [b0] =>
      exfalso
      rcases eq_or_ne b0 '_' with rfl | hne
      · simp at hk
      · revert hk
        have : (fun q => match q with
            | '_' :: d :: r2 => isLowerCh d && plusThen isAlnumCh tailok r2
            | _ => false) [b0] = false := by
          match b0, hne with
          | b0, hne =>
            cases b0 <;> simp_all
        simp [this]
    | b0 :: b1 :: b2 =>
      rcases eq_or_ne b0 '_' with rfl | hne
      · refine ⟨x, c, a, b1 :: b2, rfl, by simpa using hx, hc, ?_⟩
        intro e he
        rcases List.mem_cons.mp he with rfl | he
        · simp [isAlphaCh, hc]
        · exact ha e he
      · exfalso
        revert hk
        cases b0 <;> simp_all

theorem nsPrefixCheck_eq_nameEq (sym : Char) (tailok : List Char → Bool)
    (base l : List Char) (hsym : toLowerChar sym = sym)
    (hb : '_' ∉ base) (hdot : ∀ b ∈ base, (b == '.') = false)
    (hshape : compModShape sym tailok l = true) :
    nsPrefixCheck sym base l =
      decide (listToLower ((l.drop 2).takeWhile (fun e => e != '_')) = base) := by
  obtain ⟨x, c, as, q, rfl, hx, hc, halpha⟩ :=
    compModShape_decomp sym tailok l hshape
  have htw : ((sym :: x :: c :: (as ++ '_' :: q)).drop 2).takeWhile
      (fun e => e != '_') = c :: as := by
    have h2 : ((c :: as) ++ '_' :: q).takeWhile (fun e => e != '_') = c :: as :=
      takeWhile_append_underscore (c :: as) q
        (fun e he => alpha_bne_underscore e (halpha e he))
    simpa using h2
  have hpat : ∀ b ∈ base ++ ['_'], (b == '.') = false := by
    intro b hbm
    rcases List.mem_append.mp hbm with h1 | h1
    · exact hdot b h1
    · rw [List.mem_singleton.mp h1]
      decide
  have hlow2 : listToLower (c :: (as ++ '_' :: q)) =
      listToLower (c :: as) ++ '_' :: listToLower q := by
    have h3 : toLowerChar '_' = '_' := by decide
    simp [listToLower, h3]
  have hxlow : (toLowerChar x == 'c' || toLowerChar x == 'm') = true := by
    rcases Bool.or_eq_true _ _ ▸ hx with h4 | h4
    · rw [beq_iff_eq] at h4
      subst h4
      decide
    · rw [beq_iff_eq] at h4
      subst h4
      decide
  have hAne : ∀ e ∈ listToLower (c :: as), e ≠ '_' := by
    intro e he
    obtain ⟨e0, he0, rfl⟩ := List.mem_map.mp he
    exact toLower_alpha_ne_underscore e0 (halpha e0 he0)
  have hns : nsPrefixCheck sym base (sym :: x :: c :: (as ++ '_' :: q)) =
      startsWithL (base ++ ['_'])
        (listToLower (c :: as) ++ '_' :: listToLower q) := by
    show (toLowerChar sym == sym &&
        (toLowerChar x == 'c' || toLowerChar x == 'm') &&
        startsWithBasePat (base ++ ['_'])
          (listToLower (c :: (as ++ '_' :: q)))) = _
    rw [hlow2, startsWithBasePat_no_dot _ _ hpat, hsym]
    simp [hxlow]
  rw [hns, htw]
  by_cases heq : listToLower (c :: as) = base
  · rw [decide_eq_true heq]
    exact (startsWith_base_underscore base (listToLower (c :: as))
      (listToLower q) hb hAne).mpr heq.symm
  · rw [decide_eq_false heq]
    cases h5 : startsWithL (base ++ ['_'])
        (listToLower (c :: as) ++ '_' :: listToLower q) with
    | false => rfl
    | true =>
      exact absurd ((startsWith_base_underscore base (listToLower (c :: as))
        (listToLower q) hb hAne).mp h5).symm heq

theorem lintVariable_eq_spec (role : FileRole) (base l : List Char)
    (hrole : role ≠ .style) (hb : '_' ∉ base)
    (hdot : ∀ b ∈ base, (b == '.') = false) :
    lintVariable role base l = specVarValid role base l := by
  cases role with
  | style => exact absurd rfl hrole
  | mixin => simp [lintVariable, prefixCharsOK, rolePrefixSecond, specVarValid]
  | config =>
    by_cases hs : varShapeConfig l = true <;>
      simp [lintVariable, prefixCharsOK, rolePrefixSecond, specVarValid, hs]
  | layout =>
    by_cases hp : startsWithL ['$', 'l'] l = true <;>
      by_cases hs : varShapeLayout l = true <;>
        simp [lintVariable, prefixCharsOK, rolePrefixSecond, specVarValid, hp, hs]
  | component =>
    by_cases hp : startsWithL ['$', 'c'] l = true
    · by_cases hsh : varShapeCompMod l = true
      · have h2 := nsPrefixCheck_eq_nameEq '$' (fun q => startsWithL [':'] q)
          base l (by decide) hb hdot hsh
        simp [lintVariable, prefixCharsOK, rolePrefixSecond, specVarValid,
          hp, hsh, h2]
      · simp [lintVariable, prefixCharsOK, rolePrefixSecond, specVarValid,
          hp, hsh]
    · simp [lintVariable, prefixCharsOK, rolePrefixSecond, specVarValid, hp]
  | module =>
    by_cases hp : startsWithL ['$', 'm'] l = true
    · by_cases hsh : varShapeCompMod l = true
      · have h2 := nsPrefixCheck_eq_nameEq '$' (fun q => startsWithL [':'] q)
          base l (by decide) hb hdot hsh
        simp [lintVariable, prefixCharsOK, rolePrefixSecond, specVarValid,
          hp, hsh, h2]
      · simp [lintVariable, prefixCharsOK, rolePrefixSecond, specVarValid,
          hp, hsh]
    · simp [lintVariable, prefixCharsOK, rolePrefixSecond, specVarValid, hp]

theorem phUpperAfterC_startsWith (l : List Char) (h : phUpperAfterC l = true) :
    startsWithL ['%', 'c'] l = true := by
  match l with
  | [] => exact absurd h (by simp [phUpperAfterC])
  | [a] => exact absurd h (by simp [phUpperAfterC])
  | [a, b] => exact absurd h (by simp [phUpperAfterC])
  | a :: b :: c :: t =>
    rcases eq_or_ne a '%' with rfl | hne
    · rcases eq_or_ne b 'c' with rfl | hne2
      · simp [startsWithL]
      · exact absurd h (by simp [phUpperAfterC, hne2])
    · exact absurd h (by simp [phUpperAfterC, hne])

theorem lintPlaceHolder_comp_eq_spec (base l : List Char) (hb : '_' ∉ base)
    (hdot : ∀ b ∈ base, (b == '.') = false) :
    lintPlaceHolder .component base l = specPHCompValid base l := by
  have hkey := phSimpleCheck_eq_specPHSimple base l hdot
  by_cases hp : startsWithL ['%', 'c'] l = true
  · by_cases hsimple : specPHSimple base l = true
    · simp [lintPlaceHolder, prefixCharsOK, rolePrefixSecond, specPHCompValid,
        hp, hsimple, hkey]
    · by_cases hsh : phShapeCompMod l = true
      · have h2 := nsPrefixCheck_eq_nameEq '%' termHead base l (by decide)
          hb hdot hsh
        simp [lintPlaceHolder, prefixCharsOK, rolePrefixSecond, specPHCompValid,
          hp, hsimple, hsh, h2, hkey]
      · simp [lintPlaceHolder, prefixCharsOK, rolePrefixSecond, specPHCompValid,
          hp, hsimple, hsh, hkey]
  · have hup : phUpperAfterC l = false := by
      cases h5 : phUpperAfterC l with
      | false => rfl
      | true => exact absurd (phUpperAfterC_startsWith l h5) hp
    by_cases hsimple : specPHSimple base l = true <;>
      simp [lintPlaceHolder, prefixCharsOK, rolePrefixSecond, specPHCompValid,
        hp, hsimple, hup, hkey]

theorem lintPlaceHolder_mod_eq_spec (base l : List Char) (hb : '_' ∉ base)
    (hdot : ∀ b ∈ base, (b == '.') = false) :
    lintPlaceHolder .module base l = specPHModValid base l := by
  by_cases hp : startsWithL ['%', 'm'] l = true
  · by_cases hsh : phShapeCompMod l = true
    · have h2 := nsPrefixCheck_eq_nameEq '%' termHead base l (by decide)
        hb hdot hsh
      simp [lintPlaceHolder, prefixCharsOK, rolePrefixSecond, specPHModValid,
        hp, hsh, h2]
    · simp [lintPlaceHolder, prefixCharsOK, rolePrefixSecond, specPHModValid,
        hp, hsh]
  · simp [lintPlaceHolder, prefixCharsOK, rolePrefixSecond, specPHModValid, hp]

theorem classNsCheck_eq_spec (base l : List Char)
    (hdot : ∀ b ∈ base, (b == '.') = false)
    (h : startsWithL ['.'] l = true) :
    classNsCheck base l = specClassNs base l := by
  obtain ⟨t, rfl⟩ := (startsWithL_one '.' l).mp h
  have hlow : toLowerChar '.' = '.' := by decide
  have hr : listToLower ('.' :: t) = '.' :: listToLower t := by
    simp [listToLower, hlow]
  show (startsWithBasePat base (listToLower t) &&
      (match (listToLower t).drop base.length with
       | t2 :: _ => isClassNsTermCh t2
       | [] => false)) = specClassNs base ('.' :: t)
  rw [startsWithBasePat_no_dot base (listToLower t) hdot]
  unfold specClassNs
  rw [hr]
  rfl

theorem commentShapeRegex_implies_spec (l : List Char)
    (h : commentShapeRegex l = true) : specCommentShape l = true := by
  unfold commentShapeRegex at h
  rw [Bool.and_eq_true] at h
  obtain ⟨hpre, hrest⟩ := h
  obtain ⟨t, rfl⟩ := (startsWithL_iff _ _).mp hpre
  have hdrop : (("// -- ".toList) ++ t).drop 6 = t := by
    have h6 : ("// -- ".toList).length = 6 := rfl
    rw [← h6]
    exact List.drop_left _ _
  rw [hdrop] at hrest
  match t, hrest with
  | a :: rest, hrest =>
    rw [Bool.and_eq_true] at hrest
    obtain ⟨ha, hplus⟩ := hrest
    obtain ⟨m, b, rfl, hmne, -, hk⟩ := (plusThen_iff _ _ rest).mp hplus
    match b, hk with
    | z :: r2, hk =>
      rw [Bool.and_eq_true] at hk
      obtain ⟨hz, hr2⟩ := hk
      unfold specCommentShape
      rw [Bool.and_eq_true]
      refine ⟨startsWithL_append_self _ _, ?_⟩
      rw [hdrop, List.any_eq_true]
      refine ⟨m.length + 1, List.mem_range.mpr ?_, ?_⟩
      · simp only [List.length_cons, List.length_append]
        omega
      · have htake : (a :: (m ++ z :: r2)).take (m.length + 1 + 1) =
            a :: (m ++ [z]) := by
          rw [List.take_succ_cons]
          have : (m ++ z :: r2).take (m.length + 1) = m ++ (z :: r2).take 1 :=
            List.take_append 1
          simpa using this
        have hdrop2 : (a :: (m ++ z :: r2)).drop (m.length + 1 + 1) = r2 := by
          rw [List.drop_succ_cons]
          have : (m ++ z :: r2).drop (m.length + 1) = (z :: r2).drop 1 :=
            List.drop_append 1
          simpa using this
        rw [htake, hdrop2]
        have hlast : (a :: (m ++ [z])).getLast? = some z := by
          have : ((a :: m) ++ [z]).getLast? = some z := List.getLast?_concat _
          simpa using this
        simp only [List.head?_cons, hlast]
        simp only [ha, hz, Bool.and_self, Bool.true_and]
        exact hr2

theorem trimBoth_of_trimRight_cons (raw : List Char) (c : Char) (v : List Char)
    (h : trimRight raw = c :: v) (hw : isWS c = false) :
    trimBoth raw = c :: v := by
  unfold trimBoth
  rw [h]
  exact trimLeft_cons_not_ws c v hw

theorem head_clash (raw : List Char) (c d : Char) (hw : isWS d = false)
    (h1 : startsWithL [c] (trimBoth raw) = true)
    (h2 : startsWithL [d] (trimRight raw) = true) : c = d := by
  obtain ⟨t, ht⟩ := (startsWithL_one c (trimBoth raw)).mp h1
  obtain ⟨v, hv⟩ := (startsWithL_one d (trimRight raw)).mp h2
  have h3 := trimBoth_of_trimRight_cons raw d v hv hw
  rw [ht] at h3
  simp only [List.cons.injEq] at h3
  exact h3.1

theorem comment_dead_of_trim_head (raw : List Char) (c : Char) (hc : c ≠ '/')
    (h : startsWithL [c] (trimBoth raw) = true) :
    startsWithL ['/', '/'] (trimRight raw) = false := by
  cases h5 : startsWithL ['/', '/'] (trimRight raw) with
  | false => rfl
  | true =>
    obtain ⟨v, hv⟩ := (startsWithL_iff ['/', '/'] (trimRight raw)).mp h5
    have h6 : startsWithL ['/'] (trimRight raw) = true := by
      rw [hv]
      simp [startsWithL]
    exact absurd (head_clash raw c '/' (by decide) h h6) hc

theorem dot_dead_of_trim_head (raw : List Char) (c : Char) (hc : c ≠ '.')
    (h : startsWithL [c] (trimBoth raw) = true) :
    startsWithL ['.'] (trimRight raw) = false := by
  cases h5 : startsWithL ['.'] (trimRight raw) with
  | false => rfl
  | true => exact absurd (head_clash raw c '.' (by decide) h h5) hc

theorem trim_head_ne (raw : List Char) (c d : Char) (hcd : c ≠ d)
    (h : startsWithL [c] (trimBoth raw) = true) :
    startsWithL [d] (trimBoth raw) = false := by
  obtain ⟨t, ht⟩ := (startsWithL_one c (trimBoth raw)).mp h
  cases h5 : startsWithL [d] (trimBoth raw) with
  | false => rfl
  | true =>
    obtain ⟨v, hv⟩ := (startsWithL_one d (trimBoth raw)).mp h5
    rw [ht] at hv
    injection hv with h6 _
    exact absurd h6 hcd

theorem lintLine_comment_case (role : FileRole) (base raw : List Char)
    (h : startsWithL ['/', '/'] (trimRight raw) = true) :
    lintLine role base raw =
      (if commentTodo (trimRight raw) = false ∧ roleCommentChecked role = true ∧
          commentShapeRegex (trimRight raw) = false
       then [msgComment] else []) := by
  unfold lintLine
  rw [if_pos h]

theorem lintLine_dollar_case (role : FileRole) (base raw : List Char)
    (h : startsWithL ['$'] (trimBoth raw) = true) :
    lintLine role base raw =
      (if role = .style then [msgVarStyle]
       else if lintVariable role base (trimBoth raw) then [] else [msgVarInvalid]) := by
  have hcmt := comment_dead_of_trim_head raw '$' (by decide) h
  have hpct := trim_head_ne raw '$' '%' (by decide) h
  have hdot := dot_dead_of_trim_head raw '$' (by decide) h
  unfold lintLine
  simp [hcmt, hpct, hdot, h]

theorem lintLine_percent_case (role : FileRole) (base raw : List Char)
    (h : startsWithL ['%'] (trimBoth raw) = true) :
    lintLine role base raw =
      (if rolePHForbidden role then [msgPHNotHere]
       else if lintPlaceHolder role base (trimBoth raw) then [] else [msgPHInvalid]) := by
  have hcmt := comment_dead_of_trim_head raw '%' (by decide) h
  have hdol := trim_head_ne raw '%' '$' (by decide) h
  have hdot := dot_dead_of_trim_head raw '%' (by decide) h
  unfold lintLine
  simp [hcmt, hdol, hdot, h]

theorem lintLine_dot_case (role : FileRole) (base raw : List Char)
    (h : startsWithL ['.'] (trimRight raw) = true) :
    lintLine role base raw =
      (if role = .module then
        (if lintClassName base (trimRight raw) then [] else [msgClassInvalid])
       else [msgClassNotHere]) := by
  obtain ⟨v, hv⟩ := (startsWithL_one '.' (trimRight raw)).mp h
  have htb : trimBoth raw = '.' :: v := trimBoth_of_trimRight_cons raw '.' v hv (by decide)
  have htbs : startsWithL ['.'] (trimBoth raw) = true := by
    rw [htb]
    simp [startsWithL]
  have hcmt := comment_dead_of_trim_head raw '.' (by decide) htbs
  have hdol := trim_head_ne raw '.' '$' (by decide) htbs
  have hpct := trim_head_ne raw '.' '%' (by decide) htbs
  unfold lintLine
  simp [hcmt, hdol, hpct, h]

theorem lintLine_at_case (role : FileRole) (base raw : List Char)
    (h : startsWithL ['@'] (trimBoth raw) = true) :
    lintLine role base raw = [] := by
  have hcmt := comment_dead_of_trim_head raw '@' (by decide) h
  have hdol := trim_head_ne raw '@' '$' (by decide) h
  have hpct := trim_head_ne raw '@' '%' (by decide) h
  have hdot := dot_dead_of_trim_head raw '@' (by decide) h
  unfold lintLine
  simp [hcmt, hdol, hpct, hdot]

theorem length_ite_le {c : Prop} [Decidable c] {a b : List String}
    (ha : a.length ≤ 1) (hb : b.length ≤ 1) :
    (if c then a else b).length ≤ 1 := by
  split
  · exact ha
  · exact hb

theorem lintLine_len_le (role : FileRole) (base raw : List Char) :
    (lintLine role base raw).length ≤ 1 := by
  cases hcmt : startsWithL ['/', '/'] (trimRight raw) with
  | true =>
    rw [lintLine_comment_case role base raw hcmt]
    exact length_ite_le (by simp) (by simp)
  | false =>
    cases hdol : startsWithL ['$'] (trimBoth raw) with
    | true =>
      rw [lintLine_dollar_case role base raw hdol]
      exact length_ite_le (by simp) (length_ite_le (by simp) (by simp))
    | false =>
      cases hpct : startsWithL ['%'] (trimBoth raw) with
      | true =>
        rw [lintLine_percent_case role base raw hpct]
        exact length_ite_le (by simp) (length_ite_le (by simp) (by simp))
      | false =>
        cases hdot : startsWithL ['.'] (trimRight raw) with
        | true =>
          rw [lintLine_dot_case role base raw hdot]
          exact length_ite_le (length_ite_le (by simp) (by simp)) (by simp)
        | false =>
          unfold lintLine
          simp [hcmt, hdol, hpct, hdot]

theorem lintFileFrom_lb (role : FileRole) (base : List Char)
    (lines : List (List Char)) :
    ∀ (n : Nat) (e : Nat × String), e ∈ lintFileFrom role base n lines →
      n + 1 ≤ e.1 := by
  induction lines with
  | nil =>
    intro n e he
    simp [lintFileFrom] at he
  | cons line rest ih =>
    intro n e he
    simp only [lintFileFrom, List.mem_append, List.mem_map] at he
    rcases he with ⟨m, -, rfl⟩ | he
    · simp
    · have h2 := ih (n + 1) e he
      omega

theorem lintFileFrom_chain (role : FileRole) (base : List Char)
    (lines : List (List Char)) :
    ∀ (n : Nat),
      List.Chain' (fun a b : Nat × String => a.1 < b.1)
        (lintFileFrom role base n lines) := by
  induction lines with
  | nil =>
    intro n
    simp [lintFileFrom]
  | cons line rest ih =>
    intro n
    match h0 : lintLine role base line with
    | [] =>
      have : lintFileFrom role base n (line :: rest) =
          lintFileFrom role base (n + 1) rest := by
        simp [lintFileFrom, h0]
      rw [this]
      exact ih (n + 1)
    | [m] =>
      have : lintFileFrom role base n (line :: rest) =
          (n + 1, m) :: lintFileFrom role base (n + 1) rest := by
        simp [lintFileFrom, h0]
      rw [this]
      rw [List.chain'_cons']
      refine ⟨?_, ih (n + 1)⟩
      intro b hb
      have hmem : b ∈ lintFileFrom role base (n + 1) rest :=
        List.mem_of_mem_head? hb
      have h2 := lintFileFrom_lb role base rest (n + 1) b hmem
      simp only []
      omega
    | m1 :: m2 :: ms =>
      exfalso
      have h2 := lintLine_len_le role base line
      rw [h0] at h2
      simp at h2

theorem afterLastSlash_no_slash (l : List Char) (h : '/' ∉ l) :
    afterLastSlash l = l := by
  unfold afterLastSlash
  rw [List.takeWhile_eq_self_iff.mpr ?_]
  · exact List.reverse_reverse l
  · intro a ha
    have : a ≠ '/' := fun h2 => h (h2 ▸ List.mem_reverse.mp ha)
    simpa using this

theorem dropScssExt_append (u : List Char) (hne : u ≠ []) :
    dropScssExt (u ++ scssExt) = u := by
  have h1 : u ++ scssExt ≠ scssExt := fun heq =>
    hne (List.self_eq_append_left.mp heq.symm)
  have h2 : endsWithL scssExt (u ++ scssExt) = true := by
    unfold endsWithL
    rw [List.reverse_append]
    exact startsWithL_append_self _ _
  unfold dropScssExt
  rw [if_pos ⟨h1, h2⟩]
  have hlen : (u ++ scssExt).length - 5 = u.length := by
    simp [List.length_append, scssExt]
  rw [hlen]
  exact List.take_left u _

theorem baseName_underscore (u : List Char) (hs : '/' ∉ u) :
    sourceFileBaseName (('_' :: u) ++ scssExt) = listToLower u := by
  unfold sourceFileBaseName
  rw [afterLastSlash_no_slash _ ?_]
  · rw [dropScssExt_append ('_' :: u) (by simp)]
    have h3 : toLowerChar '_' = '_' := by decide
    simp [listToLower, h3, stripOneUnderscore]
  · intro hm
    rcases List.mem_append.mp hm with hm1 | hm2
    · rcases List.mem_cons.mp hm1 with h4 | h4
      · exact absurd h4 (by decide)
      · exact hs h4
    · exact absurd hm2 (by decide)

/-! Claim theorems. -/

/-- C1 counterexample: the claim asserts that in a Config-role file a
`@function ` line raises the "functions not permitted here" violation and
in a Style-role file a `@mixin ` line raises the mixin analogue; the code
records no violation at all for either line. -/
theorem C1_counterexample :
    lintLine FileRole.config (sourceFileBaseName ("config.scss".toList))
      ("@function badName() \x7b".toList) = [] ∧
    lintLine FileRole.style (sourceFileBaseName ("style.scss".toList))
      ("@mixin anyName() \x7b".toList) = [] := by
  constructor
  · rfl
  · rfl

/-- C1 (amended): a line whose trimmed text begins with `@` — in
particular every `@function ` and `@mixin ` declaration — receives no
category in `lintFile`: no permission or pattern check runs on it and it
never produces a violation, in any role. -/
theorem C1_theorem (role : FileRole) (base raw : List Char)
    (h : startsWithL ['@'] (trimBoth raw) = true) :
    lintLine role base raw = [] :=
  lintLine_at_case role base raw h

theorem C1_witness :
    lintLine FileRole.layout ("layout".toList)
      ("@mixin respondWidthUpTo($widthTo) \x7b".toList) = [] :=
  C1_theorem FileRole.layout ("layout".toList)
    ("@mixin respondWidthUpTo($widthTo) \x7b".toList) (by decide)

/-- C2 counterexample: the file `component/a.b.scss` is a linted
Component file with BaseName `a.b`; its variable line `$cAzb_sub:` has
`azb` after the `$c` and before the underscore, which does not equal the
BaseName, so the claim requires an "Invalid variable name" violation —
but the program splices the BaseName into the namespace RegExp, where the
`.` matches any character, and raises nothing. -/
theorem C2_counterexample :
    lintLine FileRole.component
      (sourceFileBaseName ("component/a.b.scss".toList))
      ("$cAzb_sub:".toList) = [] ∧
    listToLower ((("$cAzb_sub:".toList).drop 2).takeWhile
        (fun e => e != '_')) ≠
      sourceFileBaseName ("component/a.b.scss".toList) := by
  constructor
  · rfl
  · decide

/-- C2 (amended): in a file whose role is not Style and whose BaseName is
free of regex metacharacters (and of underscores), a line categorised as
a variable declaration (trimmed text beginning `$`) raises the
"Invalid variable name" violation — and nothing else — exactly when it
fails its role's pattern: Config `$<lower><word>+:`; Layout
`$l<Upper><alnum>+:` behind the `$l` prefix letter; Component/Module
`$<c|m><Upper><letters>+_<lower><alnum>+:` behind the role's `$c`/`$m`
prefix letter with the name up to the underscore equal, case-
insensitively, to the file's BaseName; Mixin lines always pass.  For a
BaseName containing a regex metacharacter the namespace comparison is
not literal equality: the BaseName is spliced into a RegExp, so e.g. a
`.` in it matches any character. -/
theorem C2_theorem (role : FileRole) (base raw : List Char)
    (hrole : role ≠ .style) (hb : '_' ∉ base)
    (hm : ∀ c ∈ base, isRegexLiteralCh c = true)
    (h : startsWithL ['$'] (trimBoth raw) = true) :
    lintLine role base raw =
      (if specVarValid role base (trimBoth raw) then [] else [msgVarInvalid]) := by
  rw [lintLine_dollar_case role base raw h, if_neg hrole,
    lintVariable_eq_spec role base (trimBoth raw) hrole hb
      (regexLiteral_no_dot base hm)]

theorem C2_witness :
    (lintLine FileRole.layout ("layout".toList) ("$badName: 1px;".toList) =
      (if specVarValid FileRole.layout ("layout".toList)
          (trimBoth ("$badName: 1px;".toList)) then [] else [msgVarInvalid])) ∧
    lintLine FileRole.layout ("layout".toList) ("$badName: 1px;".toList) =
      [msgVarInvalid] :=
  ⟨C2_theorem FileRole.layout ("layout".toList) ("$badName: 1px;".toList)
    (by decide) (by decide) (by decide) (by decide), by rfl⟩

/-- C3 counterexample: the trimmed line `$notAVariable` has no `:` after
its leading `$`, so by the claim it receives no category and never
produces a violation; in a Style-role file the code raises the variable
permission violation for it. -/
theorem C3_counterexample :
    lintLine FileRole.style (sourceFileBaseName ("style.scss".toList))
      ("$notAVariable".toList) = [msgVarStyle] := by
  rfl

/-- C3 (amended): any line whose trimmed text begins with `$` is
categorised as a variable declaration, whether or not a non-space run and
`:` follow; the Style permission check and the role pattern check run on
every such line. -/
theorem C3_theorem (role : FileRole) (base raw : List Char)
    (h : startsWithL ['$'] (trimBoth raw) = true) :
    lintLine role base raw =
      (if role = .style then [msgVarStyle]
       else if lintVariable role base (trimBoth raw) then [] else [msgVarInvalid]) :=
  lintLine_dollar_case role base raw h

theorem C3_witness :
    lintLine FileRole.config ("config".toList) ("$x".toList) =
      (if FileRole.config = .style then [msgVarStyle]
       else if lintVariable FileRole.config ("config".toList)
          (trimBoth ("$x".toList)) then [] else [msgVarInvalid]) :=
  C3_theorem FileRole.config ("config".toList) ("$x".toList) (by decide)

/-- C4: for a comment line (right-trimmed text beginning `//`): a TODO
comment (`//`, one or more spaces, `TODO:`) is exempt from comment-format
checking in every role; Config and Style comments are never flagged; and
in Component/Layout/Mixin/Module roles a non-TODO comment that does not
match `// -- <content> --` (content nonempty, not starting or ending with
a space) raises exactly one comment-format violation. -/
theorem C4_theorem (role : FileRole) (base raw : List Char)
    (h : startsWithL ['/', '/'] (trimRight raw) = true) :
    (commentTodo (trimRight raw) = true → lintLine role base raw = []) ∧
    (role = .config ∨ role = .style → lintLine role base raw = []) ∧
    (commentTodo (trimRight raw) = false → roleCommentChecked role = true →
      specCommentShape (trimRight raw) = false →
      lintLine role base raw = [msgComment]) := by
  rw [lintLine_comment_case role base raw h]
  refine ⟨?_, ?_, ?_⟩
  · intro htodo
    simp [htodo]
  · rintro (rfl | rfl) <;> simp [roleCommentChecked]
  · intro htodo hrc hshape
    have hreg : commentShapeRegex (trimRight raw) = false := by
      cases h5 : commentShapeRegex (trimRight raw) with
      | false => rfl
      | true =>
        have h6 := commentShapeRegex_implies_spec _ h5
        rw [hshape] at h6
        exact absurd h6 (by simp)
    rw [if_pos ⟨htodo, hrc, hreg⟩]

theorem C4_witness :
    ((commentTodo (trimRight ("// some detail".toList)) = true →
      lintLine FileRole.module ("pageheader".toList)
        ("// some detail".toList) = []) ∧
    (FileRole.module = .config ∨ FileRole.module = .style →
      lintLine FileRole.module ("pageheader".toList)
        ("// some detail".toList) = []) ∧
    (commentTodo (trimRight ("// some detail".toList)) = false →
      roleCommentChecked FileRole.module = true →
      specCommentShape (trimRight ("// some detail".toList)) = false →
      lintLine FileRole.module ("pageheader".toList)
        ("// some detail".toList) = [msgComment])) ∧
    lintLine FileRole.module ("pageheader".toList)
      ("// some detail".toList) = [msgComment] :=
  ⟨C4_theorem FileRole.module ("pageheader".toList) ("// some detail".toList)
    (by decide), by rfl⟩

/-- C5 counterexample: `sourceFileBaseName` strips only one leading
underscore character, so the claim's example `__name.scss` yields
`_name`, not `name`. -/
theorem C5_counterexample :
    sourceFileBaseName ("component/__name.scss".toList) = "_name".toList ∧
    sourceFileBaseName ("component/__name.scss".toList) ≠ "name".toList := by
  constructor
  · rfl
  · decide

/-- C5 (amended): BaseName is the filename minus the `.scss` extension,
fully lower-cased, with exactly one leading underscore character stripped
— `_name.scss` yields `name` but `__name.scss` yields `_name` — and it
is the value fed to the namespace comparisons, which lower-case the
subject line (case-insensitive) while the shape checks, such as the
upper-case letter required after the role letter, stay case-sensitive
(illustrated on the component variable check). -/
theorem C5_theorem (w : List Char) (hs : '/' ∉ w) :
    sourceFileBaseName (('_' :: w) ++ scssExt) = listToLower w ∧
    sourceFileBaseName (('_' :: '_' :: w) ++ scssExt) = '_' :: listToLower w ∧
    lintVariable .component ("navigationarea".toList)
      ("$cNavigationArea_subItem:".toList) = true ∧
    lintVariable .component ("navigationarea".toList)
      ("$cNAVIGATIONAREA_subItem:".toList) = true ∧
    lintVariable .component ("navigationarea".toList)
      ("$cnavigationarea_subItem:".toList) = false := by
  refine ⟨baseName_underscore w hs, ?_, by rfl, by rfl, by rfl⟩
  have h2 := baseName_underscore ('_' :: w) (by
    intro hm
    rcases List.mem_cons.mp hm with h3 | h3
    · exact absurd h3 (by decide)
    · exact hs h3)
  rw [h2]
  have h3 : toLowerChar '_' = '_' := by decide
  simp [listToLower, h3]

theorem C5_witness :
    (sourceFileBaseName (('_' :: "name".toList) ++ scssExt) =
      listToLower ("name".toList) ∧
    sourceFileBaseName (('_' :: '_' :: "name".toList) ++ scssExt) =
      '_' :: listToLower ("name".toList) ∧
    lintVariable .component ("navigationarea".toList)
      ("$cNavigationArea_subItem:".toList) = true ∧
    lintVariable .component ("navigationarea".toList)
      ("$cNAVIGATIONAREA_subItem:".toList) = true ∧
    lintVariable .component ("navigationarea".toList)
      ("$cnavigationarea_subItem:".toList) = false) :=
  C5_theorem ("name".toList) (by decide)

/-- C6 counterexample: in `component/a.b.scss` (BaseName `a.b`) the
placeholder line `%cAzb {` is not valid by the claim's rules — its name
`azb` is not case-insensitively equal to `%c` + BaseName, and it has no
underscore so the sub-name form fails too — yet the program raises no
violation, because the BaseName is spliced into the simple-form RegExp
where its `.` matches the `z`. -/
theorem C6_counterexample :
    lintLine FileRole.component
      (sourceFileBaseName ("component/a.b.scss".toList))
      ("%cAzb \x7b".toList) = [] ∧
    specPHCompValid (sourceFileBaseName ("component/a.b.scss".toList))
      (trimBoth ("%cAzb \x7b".toList)) = false := by
  constructor
  · rfl
  · rfl

/-- C6 (amended): in Component and Module files whose BaseName is free of
regex metacharacters (and of underscores), a placeholder line (trimmed
text beginning `%`) is flagged "Invalid placeholder selector name"
exactly when it fails the claim's validity rules — Component simple form
`%c<BaseName>` plus terminator with `%c` followed by an upper-case
letter, otherwise the `%<role letter><Upper><letters>+_<lower><alnum>+`
plus terminator form with the namespace before the underscore equal,
case-insensitively, to BaseName — and in `component/navigationarea.scss`
the lines `%cNavigationArea { }` and `%cNavigationArea_makeItPop { }`
raise no violation while `%cnavigationarea_MakeItPop { }` raises one.
For a BaseName containing a regex metacharacter the namespace and
simple-form comparisons are not literal: the BaseName is spliced into a
RegExp, so e.g. a `.` in it matches any character. -/
theorem C6_theorem (base raw : List Char) (hb : '_' ∉ base)
    (hm : ∀ c ∈ base, isRegexLiteralCh c = true)
    (h : startsWithL ['%'] (trimBoth raw) = true) :
    (lintLine .component base raw =
      (if specPHCompValid base (trimBoth raw) then [] else [msgPHInvalid])) ∧
    (lintLine .module base raw =
      (if specPHModValid base (trimBoth raw) then [] else [msgPHInvalid])) ∧
    lintLine .component (sourceFileBaseName ("component/navigationarea.scss".toList))
      ("%cNavigationArea \x7b \x7d".toList) = [] ∧
    lintLine .component (sourceFileBaseName ("component/navigationarea.scss".toList))
      ("%cNavigationArea_makeItPop \x7b \x7d".toList) = [] ∧
    lintLine .component (sourceFileBaseName ("component/navigationarea.scss".toList))
      ("%cnavigationarea_MakeItPop \x7b \x7d".toList) = [msgPHInvalid] := by
  refine ⟨?_, ?_, by rfl, by rfl, by rfl⟩
  · rw [lintLine_percent_case .component base raw h]
    simp only [rolePHForbidden, Bool.false_eq_true, if_false]
    rw [lintPlaceHolder_comp_eq_spec base (trimBoth raw) hb
      (regexLiteral_no_dot base hm)]
  · rw [lintLine_percent_case .module base raw h]
    simp only [rolePHForbidden, Bool.false_eq_true, if_false]
    rw [lintPlaceHolder_mod_eq_spec base (trimBoth raw) hb
      (regexLiteral_no_dot base hm)]

theorem C6_witness :
    ((lintLine .component ("navigationarea".toList)
        ("%cNavigationArea \x7b \x7d".toList) =
      (if specPHCompValid ("navigationarea".toList)
          (trimBoth ("%cNavigationArea \x7b \x7d".toList)) then []
       else [msgPHInvalid])) ∧
    (lintLine .module ("navigationarea".toList)
        ("%cNavigationArea \x7b \x7d".toList) =
      (if specPHModValid ("navigationarea".toList)
          (trimBoth ("%cNavigationArea \x7b \x7d".toList)) then []
       else [msgPHInvalid])) ∧
    lintLine .component (sourceFileBaseName ("component/navigationarea.scss".toList))
      ("%cNavigationArea \x7b \x7d".toList) = [] ∧
    lintLine .component (sourceFileBaseName ("component/navigationarea.scss".toList))
      ("%cNavigationArea_makeItPop \x7b \x7d".toList) = [] ∧
    lintLine .component (sourceFileBaseName ("component/navigationarea.scss".toList))
      ("%cnavigationarea_MakeItPop \x7b \x7d".toList) = [msgPHInvalid]) :=
  C6_theorem ("navigationarea".toList) ("%cNavigationArea \x7b \x7d".toList)
    (by decide) (by decide) (by decide)

/-- C7 counterexample: in `module/a.b.scss` (BaseName `a.b`) the class
line `.azb {` passes the shape but its class name `azb` does not begin
with the BaseName, so the claim requires an "Invalid class selector
name" violation — yet the program raises nothing, because the BaseName
is spliced into the namespace RegExp where its `.` matches the `z`. -/
theorem C7_counterexample :
    lintLine FileRole.module (sourceFileBaseName ("module/a.b.scss".toList))
      (".azb \x7b".toList) = [] ∧
    classShape (trimRight (".azb \x7b".toList)) = true ∧
    specClassNs (sourceFileBaseName ("module/a.b.scss".toList))
      (trimRight (".azb \x7b".toList)) = false := by
  refine ⟨rfl, rfl, rfl⟩

/-- C7 (amended): in a Module-role file whose BaseName is free of regex
metacharacters, a class-selector line (right-trimmed text beginning `.`)
raises "Invalid class selector name" exactly when it fails the shape
`.[a-z0-9][a-z0-9-]*[a-z0-9]` plus terminator, or its class name does
not, case-insensitively, begin with BaseName followed by one of comma,
colon, period, dash, space, open brace; in `module/pageheader.scss` the
line `.pageheader-navigationitem { }` raises nothing and
`.othername { }` raises the violation.  For a BaseName containing a
regex metacharacter the prefix comparison is not literal: the BaseName is
spliced into a RegExp, so e.g. a `.` in it matches any character. -/
theorem C7_theorem (base raw : List Char)
    (hm : ∀ c ∈ base, isRegexLiteralCh c = true)
    (h : startsWithL ['.'] (trimRight raw) = true) :
    (lintLine .module base raw =
      (if classShape (trimRight raw) && specClassNs base (trimRight raw)
       then [] else [msgClassInvalid])) ∧
    lintLine .module (sourceFileBaseName ("module/pageheader.scss".toList))
      (".pageheader-navigationitem \x7b \x7d".toList) = [] ∧
    lintLine .module (sourceFileBaseName ("module/pageheader.scss".toList))
      (".othername \x7b \x7d".toList) = [msgClassInvalid] := by
  refine ⟨?_, by rfl, by rfl⟩
  rw [lintLine_dot_case .module base raw h, if_pos rfl]
  have h2 : lintClassName base (trimRight raw) =
      (classShape (trimRight raw) && specClassNs base (trimRight raw)) := by
    unfold lintClassName
    rw [classNsCheck_eq_spec base (trimRight raw)
      (regexLiteral_no_dot base hm) h]
  rw [h2]

theorem C7_witness :
    ((lintLine .module ("pageheader".toList)
        (".othername \x7b \x7d".toList) =
      (if classShape (trimRight (".othername \x7b \x7d".toList)) &&
          specClassNs ("pageheader".toList)
            (trimRight (".othername \x7b \x7d".toList))
       then [] else [msgClassInvalid])) ∧
    lintLine .module (sourceFileBaseName ("module/pageheader.scss".toList))
      (".pageheader-navigationitem \x7b \x7d".toList) = [] ∧
    lintLine .module (sourceFileBaseName ("module/pageheader.scss".toList))
      (".othername \x7b \x7d".toList) = [msgClassInvalid]) :=
  C7_theorem ("pageheader".toList) (".othername \x7b \x7d".toList)
    (by decide) (by decide)

/-- C8: the permission table — variables in Style, placeholders in
Config/Mixin/Style, and class selectors outside Module each raise their
fixed permission violation; in every other role/category combination no
permission violation is raised and the category's pattern check decides
the outcome instead. -/
theorem C8_theorem :
    (∀ (base raw : List Char), startsWithL ['$'] (trimBoth raw) = true →
      lintLine .style base raw = [msgVarStyle]) ∧
    (∀ (role : FileRole) (base raw : List Char), rolePHForbidden role = true →
      startsWithL ['%'] (trimBoth raw) = true →
      lintLine role base raw = [msgPHNotHere]) ∧
    (∀ (role : FileRole) (base raw : List Char), role ≠ .module →
      startsWithL ['.'] (trimRight raw) = true →
      lintLine role base raw = [msgClassNotHere]) ∧
    (∀ (role : FileRole) (base raw : List Char), role ≠ .style →
      startsWithL ['$'] (trimBoth raw) = true →
      lintLine role base raw =
        (if lintVariable role base (trimBoth raw) then [] else [msgVarInvalid])) ∧
    (∀ (role : FileRole) (base raw : List Char), rolePHForbidden role = false →
      startsWithL ['%'] (trimBoth raw) = true →
      lintLine role base raw =
        (if lintPlaceHolder role base (trimBoth raw) then [] else [msgPHInvalid])) ∧
    (∀ (base raw : List Char), startsWithL ['.'] (trimRight raw) = true →
      lintLine .module base raw =
        (if lintClassName base (trimRight raw) then [] else [msgClassInvalid])) := by
  refine ⟨?_, ?_, ?_, ?_, ?_, ?_⟩
  · intro base raw h
    rw [lintLine_dollar_case .style base raw h, if_pos rfl]
  · intro role base raw hrole h
    rw [lintLine_percent_case role base raw h, if_pos hrole]
  · intro role base raw hrole h
    rw [lintLine_dot_case role base raw h, if_neg hrole]
  · intro role base raw hrole h
    rw [lintLine_dollar_case role base raw h, if_neg hrole]
  · intro role base raw hrole h
    rw [lintLine_percent_case role base raw h, if_neg (by simp [hrole])]
  · intro base raw h
    rw [lintLine_dot_case .module base raw h, if_pos rfl]

theorem C8_witness :
    lintLine .style ("style".toList) ("$colorRed: #ff0000;".toList) =
      [msgVarStyle] :=
  C8_theorem.1 ("style".toList) ("$colorRed: #ff0000;".toList) (by decide)

/-- C9: report well-formedness — an entry of the lint report never
carries an empty violation list (a file with zero violations is absent),
and within a file the recorded line numbers are 1-based and strictly
ascending in scan order. -/
theorem C9_theorem (files : List (FileRole × List Char × List (List Char)))
    (path : List Char) (errs : List (Nat × String))
    (h : (path, errs) ∈ lintReport files) :
    errs ≠ [] ∧
    List.Chain' (fun a b : Nat × String => a.1 < b.1) errs ∧
    (∀ e ∈ errs, 1 ≤ e.1) := by
  obtain ⟨f, hf, hsome⟩ := List.mem_filterMap.mp h
  by_cases h0 : lintFile f.1 f.2.1 f.2.2 = []
  · rw [if_pos h0] at hsome
    exact absurd hsome (by simp)
  · rw [if_neg h0] at hsome
    have h2 := Option.some.inj hsome
    have h3 : lintFile f.1 f.2.1 f.2.2 = errs := congrArg Prod.snd h2
    subst h3
    refine ⟨h0, ?_, ?_⟩
    · exact lintFileFrom_chain f.1 (sourceFileBaseName f.2.1) f.2.2 0
    · intro e he
      exact lintFileFrom_lb f.1 (sourceFileBaseName f.2.1) f.2.2 0 e he

theorem C9_witness :
    (([(1, msgClassInvalid)] : List (Nat × String)) ≠ [] ∧
    List.Chain' (fun a b : Nat × String => a.1 < b.1)
      ([(1, msgClassInvalid)] : List (Nat × String)) ∧
    (∀ e ∈ ([(1, msgClassInvalid)] : List (Nat × String)), 1 ≤ e.1)) :=
  C9_theorem
    [(FileRole.module, ("module/pageheader.scss".toList),
      [(".othername \x7b \x7d".toList)])]
    ("module/pageheader.scss".toList) [(1, msgClassInvalid)] (by decide)

/-- C10: every physical line contributes at most one lint error — the
comment branch short-circuits the rest, the variable, placeholder and
class tests key on distinct leading characters, and each branch records
at most one violation. -/
theorem C10_theorem (role : FileRole) (base raw : List Char) :
    (lintLine role base raw).length ≤ 1 :=
  lintLine_len_le role base raw

end SassLint
